import Mathlib

/-!
Shallow embedding of the seedtray/logReader core: the incremental line
scanner (`LineReader`, from lineReader.go, in its two source versions) and
the polling file watcher (`PollingFileWatcher.watch`, from
pollingFileWatcher.go), together with theorems checking the repository's
specification claims against these definitions.

Bytes are modelled as `Nat` (10 = newline, 13 = carriage return).  The
bytes a possibly still growing stream can deliver right now are a
`List Nat`; reading past them is the transient `io.EOF` of the source.
-/

namespace LogReader

/-- Errors `bufio.Reader.ReadSlice` can report to `ReadLine`:
`bufio.ErrBufferFull` when the internal buffer filled up before a newline
was seen, and `io.EOF` when the stream has no more bytes for now. -/
inductive BufErr where
  | bufferFull
  | eof
  deriving DecidableEq, Repr

/-- Errors `ReadLine` itself can return: the transient `io.EOF`, and the
degenerate "ReadSlice found newLine but returned empty" failure (a panic
in the first source version, an error in the second; unreachable either
way). -/
inductive ReadErr where
  | eof
  | emptyRead
  deriving DecidableEq, Repr

/-- State of a `LineReader` (second source version of lineReader.go): a
buffered reader over the stream, the absolute offset of the first unread
byte, and the accumulation buffer for the line in progress.  `input`
holds the bytes the stream can still deliver right now; `bufSize` is the
size of the `bufio.Reader` buffer, which Go guarantees positive
(`bufio.NewReaderSize` enforces a minimum of 16), recorded by `bufPos`. -/
structure LineReader where
  bufSize : Nat
  bufPos : 0 < bufSize
  input : List Nat
  nextPosition : Nat
  buffer : List Nat

/-- dropCR drops a terminal CR (13) from a newline terminated line
(lineReader.go, dropCR). -/
def dropCR (line : List Nat) : List Nat :=
  if line.getLast? = some 13 then line.dropLast else line

/-- The byte is not the newline delimiter. -/
def notNL (b : Nat) : Bool := b ≠ 10

/-- Model of `bufio.Reader.ReadSlice` with delimiter newline on a stream
that can deliver the bytes `input` right now, with an internal buffer of
`bufSize` bytes:

* if the first newline of `input` sits inside the buffer window, the bytes
  up to and including it are returned with no error;
* otherwise, if the stream runs dry before the buffer fills
  (`input.length < bufSize`), everything available is returned together
  with `io.EOF`;
* otherwise the full buffer is returned with `bufio.ErrBufferFull`.

The returned bytes are consumed from the stream by the caller. -/
def ReadSlice (bufSize : Nat) (input : List Nat) : List Nat × Option BufErr :=
  let pre := input.takeWhile notNL
  if pre.length < bufSize ∧ pre.length < input.length then
    (input.take (pre.length + 1), none)
  else if input.length < bufSize then
    (input, some .eof)
  else
    (input.take bufSize, some .bufferFull)

/-- Folding a chunk returned by `ReadSlice` into the reader: the chunk is
consumed from the stream, appended to `buffer`, and `nextPosition` moves
past it.  (The `len(read) > 0` guard in the source makes no difference
when the chunk is empty, so the update is written unconditionally.) -/
def advance (st : LineReader) (read : List Nat) : LineReader :=
  { st with input := st.input.drop read.length,
            buffer := st.buffer ++ read,
            nextPosition := st.nextPosition + read.length }

/-- The `ReadLine` loop of the second source version, with an explicit
recursion bound.  Each `bufio.ErrBufferFull` round consumes
`bufSize ≥ 1` bytes, so `input.length + 1` rounds always suffice and the
fuel-exhausted branch is unreachable from `ReadLine`. -/
def ReadLineGo : Nat → LineReader →
    (Option (List Nat) × Nat × Option ReadErr) × LineReader
  | 0, st => ((none, 0, some .emptyRead), st)
  | fuel + 1, st =>
    match ReadSlice st.bufSize st.input with
    | (read, none) =>
      if read.length = 0 then ((none, 0, some .emptyRead), st)
      else
        ((some (dropCR (st.buffer ++ read).dropLast),
          st.nextPosition + read.length, none),
         { advance st read with buffer := [] })
    | (read, some .bufferFull) => ReadLineGo fuel (advance st read)
    | (read, some .eof) => ((none, 0, some .eof), advance st read)

/-- ReadLine (second source version): returns the scanned line, the
position within the file where the next line will start, and any error;
`io.EOF` when no complete line is available yet, in which case no line
and no position are returned. -/
def ReadLine (st : LineReader) :
    (Option (List Nat) × Nat × Option ReadErr) × LineReader :=
  ReadLineGo (st.input.length + 1) st

/-- ReadLastLine: reads the next line, even if it is unterminated; on
`io.EOF` the accumulated buffer is returned verbatim (no dropCR, since no
newline was found) and cleared, with no error. -/
def ReadLastLine (st : LineReader) :
    (Option (List Nat) × Option ReadErr) × LineReader :=
  match ReadLine st with
  | ((line, _, err), st') =>
    if err = some ReadErr.eof then
      ((some st'.buffer, none), { st' with buffer := [] })
    else ((line, err), st')

/-- NewLineReader: a fresh reader over `stream` at offset 0. -/
def NewLineReader (bufSize : Nat) (hb : 0 < bufSize)
    (stream : List Nat) : LineReader :=
  ⟨bufSize, hb, stream, 0, []⟩

/-- NewLineReaderAtPosition: a seek to `position` on a file lands exactly
on `position`, so the two error branches of the source never fire; the
reader then scans from there with `nextPosition = position`. -/
def NewLineReaderAtPosition (bufSize : Nat) (hb : 0 < bufSize)
    (stream : List Nat) (position : Nat) : LineReader :=
  ⟨bufSize, hb, stream.drop position, position, []⟩

/-- A sequence of terminated lines as a byte stream: each line followed by
a newline terminator. -/
def encodeLines : List (List Nat) → List Nat
  | [] => []
  | l :: ls => l ++ 10 :: encodeLines ls

/-- Repeated `ReadLine` calls: collect up to `n` lines, stopping at the
first call that does not produce one. -/
def readLineList : Nat → LineReader → List (List Nat) × LineReader
  | 0, st => ([], st)
  | n + 1, st =>
    match ReadLine st with
    | ((some l, _, none), st') =>
      let r := readLineList n st'
      (l :: r.1, r.2)
    | (_, st') => ([], st')

/-- State of a `LineReader` in the first source version of lineReader.go,
which carries a `finalized` flag instead of providing `ReadLastLine`. -/
structure LineReaderFin where
  bufSize : Nat
  bufPos : 0 < bufSize
  input : List Nat
  nextPosition : Nat
  buffer : List Nat
  finalized : Bool

/-- `advance` for the first source version. -/
def advanceF (st : LineReaderFin) (read : List Nat) : LineReaderFin :=
  { st with input := st.input.drop read.length,
            buffer := st.buffer ++ read,
            nextPosition := st.nextPosition + read.length }

/-- The `ReadLine` loop of the first source version: identical to the
second except at `io.EOF`, where a finalized reader with a non-empty
buffer returns the buffer as a line (with its position) alongside the
`io.EOF` error, clearing the buffer. -/
def ReadLineFinGo : Nat → LineReaderFin →
    (Option (List Nat) × Nat × Option ReadErr) × LineReaderFin
  | 0, st => ((none, 0, some .emptyRead), st)
  | fuel + 1, st =>
    match ReadSlice st.bufSize st.input with
    | (read, none) =>
      if read.length = 0 then ((none, 0, some .emptyRead), st)
      else
        ((some (dropCR (st.buffer ++ read).dropLast),
          st.nextPosition + read.length, none),
         { advanceF st read with buffer := [] })
    | (read, some .bufferFull) => ReadLineFinGo fuel (advanceF st read)
    | (read, some .eof) =>
      if st.finalized ∧ (advanceF st read).buffer ≠ [] then
        ((some (advanceF st read).buffer, (advanceF st read).nextPosition,
          some .eof),
         { advanceF st read with buffer := [] })
      else ((none, 0, some .eof), advanceF st read)

/-- ReadLine of the first source version. -/
def ReadLineFin (st : LineReaderFin) :
    (Option (List Nat) × Nat × Option ReadErr) × LineReaderFin :=
  ReadLineFinGo (st.input.length + 1) st

/-! ## The polling file watcher (pollingFileWatcher.go, context version)

The `watch` goroutine is modelled as a transition system.  One loop
iteration is driven by a `PollEvent` supplied by the environment: the
outcome of the `Stat` call, which alternative of the notification-send
`select` fires (delivery, cancellation, or the refresh timeout), and
which alternative of the poll-interval `select` fires (timer or
cancellation).  The observable effects of an iteration are a list of
`WAction`s, in program order. -/

/-- A metadata snapshot: file size and modification time (an instant;
`time.Time.Equal` compares instants).  `time.Unix(0, 0)` is instant 0. -/
structure FileMeta where
  size : Int
  modTime : Int
  deriving DecidableEq, Repr

/-- Outcome of `fs.Stat(filename)`: metadata, or an error (identified by
an id, e.g. file removed). -/
inductive StatResult where
  | ok (m : FileMeta)
  | err (e : Nat)
  deriving DecidableEq, Repr

/-- Which alternative of the notification-send `select` fires. -/
inductive SendOutcome where
  | sent
  | cancelled
  | timeout
  deriving DecidableEq, Repr

/-- Which alternative of the poll-interval sleep `select` fires. -/
inductive SleepOutcome where
  | elapsed
  | cancelled
  deriving DecidableEq, Repr

/-- The environment's schedule for one iteration of the `watch` loop. -/
structure PollEvent where
  stat : StatResult
  send : SendOutcome
  sleep : SleepOutcome
  deriving DecidableEq, Repr

/-- Observable actions of the `watch` goroutine, in program order:
recording `pw.err`, closing the `updates` channel, a delivered
notification, and sleeping for the poll interval. -/
inductive WAction where
  | recordErr (e : Nat)
  | closeChan
  | notify
  | sleep
  deriving DecidableEq, Repr

/-- The loop-local state of `watch`: the most recently acknowledged
metadata snapshot. -/
structure WState where
  lastSize : Int
  lastModTime : Int
  deriving DecidableEq, Repr

/-- The initial snapshot of `watch`:
`var lastSize int64 = 0; lastModTime := time.Unix(0, 0)`. -/
def watchInit : WState := { lastSize := 0, lastModTime := 0 }

/-- The change test of the `watch` loop:
`currentSize != lastSize || !currentModTime.Equal(lastModTime)`. -/
def metaChanged (s : WState) (m : FileMeta) : Bool :=
  m.size ≠ s.lastSize ∨ m.modTime ≠ s.lastModTime

/-- Result of one `watch` iteration: either the loop continues with an
updated snapshot, or the goroutine has returned (after recording the
error, if any, and closing the channel). -/
inductive StepOut where
  | next (s : WState)
  | stop (errRecorded : Option Nat)
  deriving DecidableEq, Repr

/-- One iteration of the `watch` loop (pollingFileWatcher.go, `watch`):
stat; on error record it and close; on a change race the send against
cancellation and the refresh timeout (updating the snapshot only after a
successful send, re-polling immediately on timeout); otherwise sleep for
the poll interval, racing cancellation. -/
def watchStep (s : WState) (ev : PollEvent) : List WAction × StepOut :=
  match ev.stat with
  | .err e => ([.recordErr e, .closeChan], .stop (some e))
  | .ok m =>
    if metaChanged s m then
      match ev.send with
      | .sent =>
        match ev.sleep with
        | .elapsed =>
          ([.notify, .sleep], .next { lastSize := m.size, lastModTime := m.modTime })
        | .cancelled =>
          ([.notify, .closeChan], .stop none)
      | .cancelled => ([.closeChan], .stop none)
      | .timeout => ([], .next s)
    else
      match ev.sleep with
      | .elapsed => ([.sleep], .next s)
      | .cancelled => ([.closeChan], .stop none)

/-- Status of a `watch` run after consuming a list of events: still
polling (with the current snapshot), or returned with the channel closed
and `pw.err` holding the recorded error (none after cancellation). -/
inductive RunStatus where
  | running (s : WState)
  | closed (err : Option Nat)
  deriving DecidableEq, Repr

/-- Run the `watch` loop over a schedule of events, collecting the
emitted actions in order. -/
def watchRun (s : WState) : List PollEvent → List WAction × RunStatus
  | [] => ([], .running s)
  | ev :: evs =>
    match watchStep s ev with
    | (acts, .stop e) => (acts, .closed e)
    | (acts, .next s') =>
      let r := watchRun s' evs
      (acts ++ r.1, r.2)

/-- `Err()` as observed by the consumer once the run reached the given
status: `pw.err` is only ever assigned on the stat-failure path. -/
def watchErr : RunStatus → Option Nat
  | .running _ => none
  | .closed e => e

/-! ## Scanner call traces (for the `nextPosition` bookkeeping invariant)

A scanner is driven by an interleaving of `ReadLine` / `ReadLastLine`
calls and appends performed by the external writer.  `runOps` replays
such a trace and records, for every line the scanner emitted, the line
together with its byte footprint in the stream: the bytes that were
already pending when the emitting call started plus the bytes the call
consumed, i.e. the line's content plus its consumed terminator (if
any). -/

/-- A line emitted during a trace, with its byte footprint. -/
structure Emitted where
  line : List Nat
  bytes : Nat
  deriving DecidableEq, Repr

/-- One step of a scanner trace: a `ReadLine` call, a `ReadLastLine`
call, or bytes appended to the stream by the external writer. -/
inductive LROp where
  | read
  | readLast
  | append (bs : List Nat)

/-- The external writer appends bytes to the stream. -/
def appendBytes (st : LineReader) (bs : List Nat) : LineReader :=
  { st with input := st.input ++ bs }

/-- One step of a scanner trace: the state after the operation and, if a
line was emitted, the line tagged with its byte footprint — the bytes
pending when the call started plus the bytes the call consumed. -/
def runOp (st : LineReader) : LROp → LineReader × Option Emitted
  | .append bs => (appendBytes st bs, none)
  | .read =>
    match ReadLine st with
    | ((some l, _, none), st') =>
      (st', some ⟨l, st.buffer.length + (st'.nextPosition - st.nextPosition)⟩)
    | (_, st') => (st', none)
  | .readLast =>
    match ReadLastLine st with
    | ((some l, none), st') =>
      (st', some ⟨l, st.buffer.length + (st'.nextPosition - st.nextPosition)⟩)
    | (_, st') => (st', none)

/-- Replay a scanner trace, collecting the emitted lines in order. -/
def runOps (st : LineReader) : List LROp → LineReader × List Emitted
  | [] => (st, [])
  | op :: ops =>
    let r := runOps (runOp st op).1 ops
    (r.1, (runOp st op).2.toList ++ r.2)

/-! ## Extensionality of the reader states -/

theorem LineReader.eqOfFields {a b : LineReader} (hs : a.bufSize = b.bufSize)
    (hi : a.input = b.input) (hn : a.nextPosition = b.nextPosition)
    (hb : a.buffer = b.buffer) : a = b := by
  cases a
  cases b
  simp only at hs hi hn hb
  subst hs hi hn hb
  rfl

theorem LineReaderFin.eqOfFieldsFin {a b : LineReaderFin} (hs : a.bufSize = b.bufSize)
    (hi : a.input = b.input) (hn : a.nextPosition = b.nextPosition)
    (hb : a.buffer = b.buffer) (hf : a.finalized = b.finalized) : a = b := by
  cases a
  cases b
  simp only at hs hi hn hb hf
  subst hs hi hn hb hf
  rfl

/-! ## The first-newline decomposition of a byte list -/

theorem notNL_of_ne {b : Nat} (h : b ≠ 10) : notNL b = true := by
  simp [notNL, h]

theorem takeWhile_notNL_length_le (l : List Nat) :
    (l.takeWhile notNL).length ≤ l.length := by
  conv_rhs => rw [← List.takeWhile_append_dropWhile notNL l]
  rw [List.length_append]
  omega

theorem takeWhile_notNL_spec {l : List Nat} (h : 10 ∈ l) :
    l.take ((l.takeWhile notNL).length + 1) = l.takeWhile notNL ++ [10] ∧
    (l.takeWhile notNL).length < l.length ∧
    10 ∉ l.takeWhile notNL := by
  induction l with
  | nil => cases h
  | cons a t ih =>
    by_cases ha : a = 10
    · subst ha
      simp [List.takeWhile_cons, notNL]
    · have h10 : 10 ∈ t := by
        rcases List.mem_cons.mp h with h' | h'
        · exact absurd h'.symm ha
        · exact h'
      obtain ⟨h1, h2, h3⟩ := ih h10
      rw [List.takeWhile_cons, if_pos (notNL_of_ne ha)]
      refine ⟨?_, ?_, ?_⟩
      · simpa using h1
      · simpa using h2
      · intro hmem
        rcases List.mem_cons.mp hmem with h' | h'
        · exact ha h'.symm
        · exact h3 h'

theorem takeWhile_notNL_of_not_mem {l : List Nat} (h : 10 ∉ l) :
    l.takeWhile notNL = l :=
  List.takeWhile_eq_self_iff.mpr fun _ hx => notNL_of_ne fun e => h (e ▸ hx)

theorem takeWhile_notNL_drop {l : List Nat} {n : Nat}
    (h : n ≤ (l.takeWhile notNL).length) :
    (l.drop n).takeWhile notNL = (l.takeWhile notNL).drop n := by
  induction n generalizing l with
  | zero => simp
  | succ n ih =>
    cases l with
    | nil => simp
    | cons a t =>
      rw [List.takeWhile_cons] at h ⊢
      by_cases ha : notNL a
      · rw [if_pos ha] at h ⊢
        simpa using ih (by simpa using h)
      · rw [if_neg ha] at h
        simp at h

theorem take_of_le_takeWhile {l : List Nat} {n : Nat}
    (h : n ≤ (l.takeWhile notNL).length) :
    l.take n = (l.takeWhile notNL).take n := by
  induction n generalizing l with
  | zero => simp
  | succ n ih =>
    cases l with
    | nil => simp
    | cons a t =>
      rw [List.takeWhile_cons] at h ⊢
      by_cases ha : notNL a
      · rw [if_pos ha] at h ⊢
        simpa using ih (by simpa using h)
      · rw [if_neg ha] at h
        simp at h

theorem mem_drop_of_le_takeWhile {l : List Nat} {n : Nat} (h10 : 10 ∈ l)
    (h : n ≤ (l.takeWhile notNL).length) : 10 ∈ l.drop n := by
  have hd : l.drop n = (l.takeWhile notNL).drop n ++ l.dropWhile notNL := by
    conv_lhs => rw [← List.takeWhile_append_dropWhile notNL l]
    exact List.drop_append_of_le_length h
  have hmem : 10 ∈ l.dropWhile notNL := by
    conv at h10 => rw [← List.takeWhile_append_dropWhile notNL l]
    rcases List.mem_append.mp h10 with h' | h'
    · exact absurd (List.mem_takeWhile_imp h') (by simp [notNL])
    · exact h'
  rw [hd]
  exact List.mem_append.mpr (Or.inr hmem)

/-! ## Case analysis of `ReadSlice` -/

theorem ReadSlice_found {bufSize : Nat} {input : List Nat} (h10 : 10 ∈ input)
    (hk : (input.takeWhile notNL).length < bufSize) :
    ReadSlice bufSize input = (input.takeWhile notNL ++ [10], none) := by
  obtain ⟨h1, h2, _⟩ := takeWhile_notNL_spec h10
  unfold ReadSlice
  rw [if_pos ⟨hk, h2⟩, h1]

theorem ReadSlice_full {bufSize : Nat} {input : List Nat}
    (hk : bufSize ≤ (input.takeWhile notNL).length) :
    ReadSlice bufSize input = (input.take bufSize, some .bufferFull) := by
  have hle := takeWhile_notNL_length_le input
  unfold ReadSlice
  rw [if_neg (by omega), if_neg (by omega)]

theorem ReadSlice_eof {bufSize : Nat} {input : List Nat} (h10 : 10 ∉ input)
    (hlt : input.length < bufSize) :
    ReadSlice bufSize input = (input, some .eof) := by
  have heq := takeWhile_notNL_of_not_mem h10
  unfold ReadSlice
  rw [if_neg (by rw [heq]; omega), if_pos hlt]

/-! ## The two outcomes of a `ReadLine` call -/

theorem ReadLineGo_found (fuel : Nat) :
    ∀ st : LineReader, st.input.length < fuel → 10 ∈ st.input →
    ReadLineGo fuel st =
      ((some (dropCR (st.buffer ++ st.input.takeWhile notNL)),
        st.nextPosition + ((st.input.takeWhile notNL).length + 1), none),
       ⟨st.bufSize, st.bufPos,
        st.input.drop ((st.input.takeWhile notNL).length + 1),
        st.nextPosition + ((st.input.takeWhile notNL).length + 1), []⟩) := by
  induction fuel with
  | zero => intro st hf _; omega
  | succ n ih =>
    intro st hf h10
    by_cases hk : (st.input.takeWhile notNL).length < st.bufSize
    · rw [ReadLineGo, ReadSlice_found h10 hk]
      have hlen : (st.input.takeWhile notNL ++ [10]).length =
          (st.input.takeWhile notNL).length + 1 := by simp
      simp only [hlen]
      rw [if_neg (by omega)]
      refine congrArg₂ Prod.mk (by rw [← List.append_assoc, List.dropLast_concat]) ?_
      exact LineReader.eqOfFields rfl (by simp [advance]) (by simp [advance]) rfl
    · have hk' : st.bufSize ≤ (st.input.takeWhile notNL).length := by omega
      rw [ReadLineGo, ReadSlice_full hk']
      show ReadLineGo n (advance st (st.input.take st.bufSize)) = _
      have hchunk : st.input.take st.bufSize = (st.input.takeWhile notNL).take st.bufSize :=
        take_of_le_takeWhile hk'
      have hfuel : (advance st (st.input.take st.bufSize)).input.length < n := by
        simp only [advance, List.length_drop, List.length_take]
        have := st.bufPos
        have := takeWhile_notNL_length_le st.input
        omega
      have hmem : 10 ∈ (advance st (st.input.take st.bufSize)).input := by
        simp only [advance, List.length_take]
        have := takeWhile_notNL_length_le st.input
        have : min st.bufSize st.input.length = st.bufSize := by omega
        rw [this]
        exact mem_drop_of_le_takeWhile h10 hk'
      rw [ih _ hfuel hmem]
      have hlentake : (st.input.take st.bufSize).length = st.bufSize := by
        have := takeWhile_notNL_length_le st.input
        simp only [List.length_take]
        omega
      have hpre : (advance st (st.input.take st.bufSize)).input.takeWhile notNL =
          (st.input.takeWhile notNL).drop st.bufSize := by
        simp only [advance, hlentake]
        exact takeWhile_notNL_drop hk'
      have hbuf : (advance st (st.input.take st.bufSize)).buffer ++
          (st.input.takeWhile notNL).drop st.bufSize =
          st.buffer ++ st.input.takeWhile notNL := by
        simp only [advance, List.append_assoc]
        rw [hchunk, List.take_append_drop]
      refine congrArg₂ Prod.mk ?_ ?_
      · rw [hpre, hbuf]
        simp only [advance, hlentake, List.length_drop]
        have := takeWhile_notNL_length_le st.input
        refine congrArg₂ Prod.mk rfl (congrArg₂ Prod.mk ?_ rfl)
        omega
      · rw [hpre]
        refine LineReader.eqOfFields rfl ?_ ?_ rfl
        · simp only [advance, hlentake, List.length_drop, List.drop_drop]
          congr 1
          omega
        · simp only [advance, hlentake, List.length_drop]
          omega

theorem ReadLineGo_eof (fuel : Nat) :
    ∀ st : LineReader, st.input.length < fuel → 10 ∉ st.input →
    ReadLineGo fuel st =
      ((none, 0, some .eof),
       ⟨st.bufSize, st.bufPos, [], st.nextPosition + st.input.length,
        st.buffer ++ st.input⟩) := by
  induction fuel with
  | zero => intro st hf _; omega
  | succ n ih =>
    intro st hf h10
    have heq := takeWhile_notNL_of_not_mem h10
    by_cases hlt : st.input.length < st.bufSize
    · rw [ReadLineGo, ReadSlice_eof h10 hlt]
      refine congrArg₂ Prod.mk rfl ?_
      exact LineReader.eqOfFields rfl (by simp [advance]) (by simp [advance]) (by simp [advance])
    · have hk' : st.bufSize ≤ (st.input.takeWhile notNL).length := by
        rw [heq]; omega
      rw [ReadLineGo, ReadSlice_full hk']
      show ReadLineGo n (advance st (st.input.take st.bufSize)) = _
      have hlentake : (st.input.take st.bufSize).length = st.bufSize := by
        simp only [List.length_take]
        omega
      have hfuel : (advance st (st.input.take st.bufSize)).input.length < n := by
        simp only [advance, List.length_drop, hlentake]
        have := st.bufPos
        omega
      have hmem : 10 ∉ (advance st (st.input.take st.bufSize)).input := by
        simp only [advance]
        exact fun hc => h10 (List.mem_of_mem_drop hc)
      rw [ih _ hfuel hmem]
      refine congrArg₂ Prod.mk rfl ?_
      refine LineReader.eqOfFields rfl rfl ?_ ?_
      · simp only [advance, hlentake, List.length_drop]
        omega
      · simp only [advance, hlentake, List.append_assoc]
        rw [List.take_append_drop]

theorem ReadLine_found (st : LineReader) (h10 : 10 ∈ st.input) :
    ReadLine st =
      ((some (dropCR (st.buffer ++ st.input.takeWhile notNL)),
        st.nextPosition + ((st.input.takeWhile notNL).length + 1), none),
       ⟨st.bufSize, st.bufPos,
        st.input.drop ((st.input.takeWhile notNL).length + 1),
        st.nextPosition + ((st.input.takeWhile notNL).length + 1), []⟩) :=
  ReadLineGo_found _ st (Nat.lt_succ_self _) h10

theorem ReadLine_eof (st : LineReader) (h10 : 10 ∉ st.input) :
    ReadLine st =
      ((none, 0, some .eof),
       ⟨st.bufSize, st.bufPos, [], st.nextPosition + st.input.length,
        st.buffer ++ st.input⟩) :=
  ReadLineGo_eof _ st (Nat.lt_succ_self _) h10

/-! ## The same two outcomes for the first (finalized-capable) version -/

theorem ReadLineFinGo_found (fuel : Nat) :
    ∀ st : LineReaderFin, st.input.length < fuel → 10 ∈ st.input →
    ReadLineFinGo fuel st =
      ((some (dropCR (st.buffer ++ st.input.takeWhile notNL)),
        st.nextPosition + ((st.input.takeWhile notNL).length + 1), none),
       ⟨st.bufSize, st.bufPos,
        st.input.drop ((st.input.takeWhile notNL).length + 1),
        st.nextPosition + ((st.input.takeWhile notNL).length + 1), [],
        st.finalized⟩) := by
  induction fuel with
  | zero => intro st hf _; omega
  | succ n ih =>
    intro st hf h10
    by_cases hk : (st.input.takeWhile notNL).length < st.bufSize
    · rw [ReadLineFinGo, ReadSlice_found h10 hk]
      have hlen : (st.input.takeWhile notNL ++ [10]).length =
          (st.input.takeWhile notNL).length + 1 := by simp
      simp only [hlen]
      rw [if_neg (by omega)]
      refine congrArg₂ Prod.mk (by rw [← List.append_assoc, List.dropLast_concat]) ?_
      exact LineReaderFin.eqOfFieldsFin rfl (by simp [advanceF]) (by simp [advanceF]) rfl rfl
    · have hk' : st.bufSize ≤ (st.input.takeWhile notNL).length := by omega
      rw [ReadLineFinGo, ReadSlice_full hk']
      show ReadLineFinGo n (advanceF st (st.input.take st.bufSize)) = _
      have hchunk : st.input.take st.bufSize = (st.input.takeWhile notNL).take st.bufSize :=
        take_of_le_takeWhile hk'
      have hlentake : (st.input.take st.bufSize).length = st.bufSize := by
        have := takeWhile_notNL_length_le st.input
        simp only [List.length_take]
        omega
      have hfuel : (advanceF st (st.input.take st.bufSize)).input.length < n := by
        simp only [advanceF, List.length_drop, List.length_take]
        have := st.bufPos
        have := takeWhile_notNL_length_le st.input
        omega
      have hmem : 10 ∈ (advanceF st (st.input.take st.bufSize)).input := by
        simp only [advanceF, hlentake]
        exact mem_drop_of_le_takeWhile h10 hk'
      rw [ih _ hfuel hmem]
      have hpre : (advanceF st (st.input.take st.bufSize)).input.takeWhile notNL =
          (st.input.takeWhile notNL).drop st.bufSize := by
        simp only [advanceF, hlentake]
        exact takeWhile_notNL_drop hk'
      have hbuf : (advanceF st (st.input.take st.bufSize)).buffer ++
          (st.input.takeWhile notNL).drop st.bufSize =
          st.buffer ++ st.input.takeWhile notNL := by
        simp only [advanceF, List.append_assoc]
        rw [hchunk, List.take_append_drop]
      refine congrArg₂ Prod.mk ?_ ?_
      · rw [hpre, hbuf]
        simp only [advanceF, hlentake, List.length_drop]
        have := takeWhile_notNL_length_le st.input
        refine congrArg₂ Prod.mk rfl (congrArg₂ Prod.mk ?_ rfl)
        omega
      · rw [hpre]
        refine LineReaderFin.eqOfFieldsFin rfl ?_ ?_ rfl rfl
        · simp only [advanceF, hlentake, List.length_drop, List.drop_drop]
          congr 1
          omega
        · simp only [advanceF, hlentake, List.length_drop]
          omega

theorem ReadLineFinGo_eof_fin (fuel : Nat) :
    ∀ st : LineReaderFin, st.input.length < fuel → 10 ∉ st.input →
    st.finalized = true → st.buffer ++ st.input ≠ [] →
    ReadLineFinGo fuel st =
      ((some (st.buffer ++ st.input), st.nextPosition + st.input.length,
        some .eof),
       ⟨st.bufSize, st.bufPos, [], st.nextPosition + st.input.length, [],
        true⟩) := by
  induction fuel with
  | zero => intro st hf _ _ _; omega
  | succ n ih =>
    intro st hf h10 hfin hne
    have heq := takeWhile_notNL_of_not_mem h10
    by_cases hlt : st.input.length < st.bufSize
    · rw [ReadLineFinGo, ReadSlice_eof h10 hlt]
      have hcond : st.finalized = true ∧ (advanceF st st.input).buffer ≠ [] := by
        refine ⟨hfin, ?_⟩
        simp only [advanceF]
        exact hne
      show (if st.finalized = true ∧ (advanceF st st.input).buffer ≠ [] then
              ((some (advanceF st st.input).buffer,
                (advanceF st st.input).nextPosition, some ReadErr.eof),
               { advanceF st st.input with buffer := [] })
            else ((none, 0, some ReadErr.eof), advanceF st st.input)) = _
      rw [if_pos hcond]
      refine congrArg₂ Prod.mk ?_ ?_
      · simp [advanceF]
      · exact LineReaderFin.eqOfFieldsFin rfl (by simp [advanceF]) (by simp [advanceF]) rfl hfin
    · have hk' : st.bufSize ≤ (st.input.takeWhile notNL).length := by
        rw [heq]; omega
      rw [ReadLineFinGo, ReadSlice_full hk']
      show ReadLineFinGo n (advanceF st (st.input.take st.bufSize)) = _
      have hlentake : (st.input.take st.bufSize).length = st.bufSize := by
        simp only [List.length_take]
        omega
      have hfuel : (advanceF st (st.input.take st.bufSize)).input.length < n := by
        simp only [advanceF, List.length_drop, hlentake]
        have := st.bufPos
        omega
      have hmem : 10 ∉ (advanceF st (st.input.take st.bufSize)).input := by
        simp only [advanceF]
        exact fun hc => h10 (List.mem_of_mem_drop hc)
      have hbuf : (advanceF st (st.input.take st.bufSize)).buffer ++
          (advanceF st (st.input.take st.bufSize)).input =
          st.buffer ++ st.input := by
        simp only [advanceF, hlentake, List.append_assoc]
        rw [List.take_append_drop]
      rw [ih _ hfuel hmem (by simpa [advanceF] using hfin) (by rw [hbuf]; exact hne)]
      refine congrArg₂ Prod.mk ?_ ?_
      · rw [hbuf]
        simp only [advanceF, hlentake, List.length_drop]
        refine congrArg₂ Prod.mk rfl (congrArg₂ Prod.mk ?_ rfl)
        omega
      · refine LineReaderFin.eqOfFieldsFin rfl rfl ?_ rfl rfl
        simp only [advanceF, hlentake, List.length_drop]
        omega

theorem ReadLineFin_found (st : LineReaderFin) (h10 : 10 ∈ st.input) :
    ReadLineFin st =
      ((some (dropCR (st.buffer ++ st.input.takeWhile notNL)),
        st.nextPosition + ((st.input.takeWhile notNL).length + 1), none),
       ⟨st.bufSize, st.bufPos,
        st.input.drop ((st.input.takeWhile notNL).length + 1),
        st.nextPosition + ((st.input.takeWhile notNL).length + 1), [],
        st.finalized⟩) :=
  ReadLineFinGo_found _ st (Nat.lt_succ_self _) h10

theorem ReadLineFin_eof_fin (st : LineReaderFin) (h10 : 10 ∉ st.input)
    (hfin : st.finalized = true) (hne : st.buffer ++ st.input ≠ []) :
    ReadLineFin st =
      ((some (st.buffer ++ st.input), st.nextPosition + st.input.length,
        some .eof),
       ⟨st.bufSize, st.bufPos, [], st.nextPosition + st.input.length, [],
        true⟩) :=
  ReadLineFinGo_eof_fin _ st (Nat.lt_succ_self _) h10 hfin hne

/-! ## Further helpers: dropCR, appends, `ReadLastLine`, line sequences -/

theorem dropCR_eq_self {l : List Nat} (h : l.getLast? ≠ some 13) :
    dropCR l = l := by
  unfold dropCR
  rw [if_neg h]

theorem dropCR_length (l : List Nat) :
    l.length - 1 ≤ (dropCR l).length ∧ (dropCR l).length ≤ l.length := by
  unfold dropCR
  split
  · rw [List.length_dropLast]
    omega
  · omega

theorem takeWhile_notNL_append {xs ys : List Nat} (h : 10 ∉ xs) :
    (xs ++ ys).takeWhile notNL = xs ++ ys.takeWhile notNL := by
  induction xs with
  | nil => simp
  | cons a t ih =>
    have ha : a ≠ 10 := fun e => h (e ▸ List.mem_cons_self a t)
    rw [List.cons_append, List.takeWhile_cons, if_pos (notNL_of_ne ha),
      ih (fun hm => h (List.mem_cons_of_mem a hm)), List.cons_append]

theorem takeWhile_notNL_append_cons {l : List Nat} (h : 10 ∉ l)
    (rest : List Nat) : (l ++ 10 :: rest).takeWhile notNL = l := by
  rw [takeWhile_notNL_append h, List.takeWhile_cons]
  simp [notNL]

theorem drop_append_cons (l rest : List Nat) (a : Nat) :
    (l ++ a :: rest).drop (l.length + 1) = rest := by
  have h1 : l ++ a :: rest = (l ++ [a]) ++ rest := by simp
  have h2 : l.length + 1 = (l ++ [a]).length := by simp
  rw [h1, h2, List.drop_left]

theorem ReadLastLine_found (st : LineReader) (h10 : 10 ∈ st.input) :
    ReadLastLine st =
      ((some (dropCR (st.buffer ++ st.input.takeWhile notNL)), none),
       ⟨st.bufSize, st.bufPos,
        st.input.drop ((st.input.takeWhile notNL).length + 1),
        st.nextPosition + ((st.input.takeWhile notNL).length + 1), []⟩) := by
  unfold ReadLastLine
  rw [ReadLine_found st h10]
  rfl

theorem ReadLastLine_eof (st : LineReader) (h10 : 10 ∉ st.input) :
    ReadLastLine st =
      ((some (st.buffer ++ st.input), none),
       ⟨st.bufSize, st.bufPos, [], st.nextPosition + st.input.length, []⟩) := by
  unfold ReadLastLine
  rw [ReadLine_eof st h10]
  rfl

/-- Reading over a stream that starts with the terminated lines `ls`
(each line free of terminator bytes) reproduces `ls` byte-identically and
leaves the reader positioned right after them. -/
theorem readLineList_encode (ls : List (List Nat)) :
    ∀ (st : LineReader) (tail : List Nat),
    (∀ l ∈ ls, 10 ∉ l ∧ l.getLast? ≠ some 13) →
    st.buffer = [] → st.input = encodeLines ls ++ tail →
    readLineList ls.length st =
      (ls, ⟨st.bufSize, st.bufPos, tail,
            st.nextPosition + (encodeLines ls).length, []⟩) := by
  induction ls with
  | nil =>
    intro st tail _ hb hin
    rw [List.length_nil, readLineList]
    refine congrArg₂ Prod.mk rfl ?_
    refine LineReader.eqOfFields rfl ?_ ?_ hb
    · rw [hin, encodeLines, List.nil_append]
    · rw [encodeLines, List.length_nil, Nat.add_zero]
  | cons l ls ih =>
    intro st tail hwf hb hin
    have hl10 : 10 ∉ l := (hwf l (List.mem_cons_self l ls)).1
    have hlcr : l.getLast? ≠ some 13 := (hwf l (List.mem_cons_self l ls)).2
    have hin' : st.input = l ++ 10 :: (encodeLines ls ++ tail) := by
      rw [hin, encodeLines, List.append_assoc, List.cons_append]
    have h10 : 10 ∈ st.input := by
      rw [hin']
      exact List.mem_append.mpr (Or.inr (List.mem_cons_self 10 _))
    have hpre : st.input.takeWhile notNL = l := by
      rw [hin']
      exact takeWhile_notNL_append_cons hl10 _
    have hrl := ReadLine_found st h10
    rw [hpre, hb, List.nil_append, dropCR_eq_self hlcr] at hrl
    have hdrop : st.input.drop (l.length + 1) = encodeLines ls ++ tail := by
      rw [hin']
      exact drop_append_cons _ _ _
    rw [hdrop] at hrl
    rw [List.length_cons, readLineList, hrl]
    show (l :: (readLineList ls.length _).1, (readLineList ls.length _).2) = _
    rw [ih _ tail (fun x hx => hwf x (List.mem_cons_of_mem l hx)) rfl rfl]
    refine congrArg₂ Prod.mk rfl ?_
    refine LineReader.eqOfFields rfl rfl ?_ rfl
    show st.nextPosition + (l.length + 1) + (encodeLines ls).length =
      st.nextPosition + (encodeLines (l :: ls)).length
    rw [encodeLines, List.length_append, List.length_cons]
    omega

/-- `encodeLines` distributes over append. -/
theorem encodeLines_append (a b : List (List Nat)) :
    encodeLines (a ++ b) = encodeLines a ++ encodeLines b := by
  induction a with
  | nil => rw [List.nil_append, encodeLines, List.nil_append]
  | cons l ls ih =>
    rw [List.cons_append, encodeLines, encodeLines, ih, List.append_assoc,
      List.cons_append]

/-- Splitting the arrival of the bytes makes no difference: a reader that
folded the newline-free bytes `st.input` into its buffer and then sees
`bs` arrive behaves exactly like a reader that had all those bytes
available at once. -/
theorem ReadLine_split (st : LineReader) (bs : List Nat)
    (h10 : 10 ∉ st.input) :
    ReadLine ⟨st.bufSize, st.bufPos, bs, st.nextPosition + st.input.length,
      st.buffer ++ st.input⟩ =
    ReadLine ⟨st.bufSize, st.bufPos, st.input ++ bs, st.nextPosition,
      st.buffer⟩ := by
  by_cases hbs : 10 ∈ bs
  · rw [ReadLine_found _ hbs, ReadLine_found _ (by
      exact List.mem_append.mpr (Or.inr hbs))]
    dsimp only
    rw [takeWhile_notNL_append h10]
    have hlen : (st.input ++ bs.takeWhile notNL).length + 1 =
        st.input.length + ((bs.takeWhile notNL).length + 1) := by
      rw [List.length_append]
      omega
    have hdrop : (st.input ++ bs).drop
        ((st.input ++ bs.takeWhile notNL).length + 1) =
        bs.drop ((bs.takeWhile notNL).length + 1) := by
      rw [hlen, ← List.drop_drop, List.drop_left]
    refine congrArg₂ Prod.mk ?_ ?_
    · refine congrArg₂ Prod.mk ?_ (congrArg₂ Prod.mk ?_ rfl)
      · rw [List.append_assoc]
      · rw [hlen]
        omega
    · refine LineReader.eqOfFields rfl hdrop.symm ?_ rfl
      dsimp only
      rw [hlen]
      omega
  · have hni : 10 ∉ st.input ++ bs := by
      intro hm
      rcases List.mem_append.mp hm with h' | h'
      · exact h10 h'
      · exact hbs h'
    rw [ReadLine_eof _ hbs, ReadLine_eof _ hni]
    dsimp only
    refine congrArg₂ Prod.mk rfl ?_
    refine LineReader.eqOfFields rfl rfl ?_ ?_
    · dsimp only
      rw [List.length_append]
      omega
    · dsimp only
      rw [List.append_assoc]

/-! ## Watcher run lemmas -/

/-- Every iteration of the `watch` loop has one of three shapes: it stops
on a stat failure having just recorded the error and closed the channel,
it continues (emitting neither a close nor an error record), or it stops
on cancellation with the close as its last action and no error record. -/
theorem watchStep_shapes (s : WState) (ev : PollEvent) :
    (∃ e, ev.stat = .err e ∧
      watchStep s ev = ([.recordErr e, .closeChan], .stop (some e))) ∨
    (∃ acts s', watchStep s ev = (acts, .next s') ∧
      WAction.closeChan ∉ acts ∧ ∀ e, WAction.recordErr e ∉ acts) ∨
    (∃ acts, watchStep s ev = (acts ++ [.closeChan], .stop none) ∧
      WAction.closeChan ∉ acts ∧ ∀ e, WAction.recordErr e ∉ acts) := by
  obtain ⟨stat, send, sleep⟩ := ev
  cases stat with
  | err e =>
    exact Or.inl ⟨e, rfl, rfl⟩
  | ok m =>
    by_cases hc : metaChanged s m
    · cases send with
      | sent =>
        cases sleep with
        | elapsed =>
          refine Or.inr (Or.inl ⟨[.notify, .sleep], ⟨m.size, m.modTime⟩, ?_, by simp, fun e => by simp⟩)
          simp [watchStep, hc]
        | cancelled =>
          refine Or.inr (Or.inr ⟨[.notify], ?_, by simp, fun e => by simp⟩)
          simp [watchStep, hc]
      | cancelled =>
        refine Or.inr (Or.inr ⟨[], ?_, by simp, fun e => by simp⟩)
        simp [watchStep, hc]
      | timeout =>
        refine Or.inr (Or.inl ⟨[], s, ?_, by simp, fun e => by simp⟩)
        simp [watchStep, hc]
    · cases sleep with
      | elapsed =>
        refine Or.inr (Or.inl ⟨[.sleep], s, ?_, by simp, fun e => by simp⟩)
        simp [watchStep, hc]
      | cancelled =>
        refine Or.inr (Or.inr ⟨[], ?_, by simp, fun e => by simp⟩)
        simp [watchStep, hc]

/-- A `watch` run decomposes along an append of its event schedule. -/
theorem watchRun_append (s : WState) (a b : List PollEvent) :
    watchRun s (a ++ b) =
      match watchRun s a with
      | (acts, .running s') => (acts ++ (watchRun s' b).1, (watchRun s' b).2)
      | (acts, .closed e) => (acts, .closed e) := by
  induction a generalizing s with
  | nil => cases hb : watchRun s b with
    | mk acts r => cases r <;> simp [watchRun, hb]
  | cons ev evs ih =>
    rw [List.cons_append, watchRun, watchRun]
    cases hstep : watchStep s ev with
    | mk acts out =>
      cases out with
      | stop e => rfl
      | next s' =>
        dsimp only
        rw [ih s']
        cases hr : watchRun s' evs with
        | mk acts2 r2 =>
          cases r2 <;> simp [List.append_assoc]

/-- Shape of a full `watch` run: while the loop is still running no close
and no error record has been emitted; a stat-failure stop ends the action
trace with the error record followed immediately by the close; a
cancellation stop ends it with the close, with no error record anywhere. -/
theorem watchRun_shapes (evs : List PollEvent) : ∀ s : WState,
    (∀ s', (watchRun s evs).2 = .running s' →
      WAction.closeChan ∉ (watchRun s evs).1 ∧
      ∀ e, WAction.recordErr e ∉ (watchRun s evs).1) ∧
    (∀ e, (watchRun s evs).2 = .closed (some e) →
      ∃ pre, (watchRun s evs).1 = pre ++ [.recordErr e, .closeChan] ∧
        WAction.closeChan ∉ pre ∧ ∀ e', WAction.recordErr e' ∉ pre) ∧
    ((watchRun s evs).2 = .closed none →
      ∃ pre, (watchRun s evs).1 = pre ++ [.closeChan] ∧
        WAction.closeChan ∉ pre ∧ ∀ e', WAction.recordErr e' ∉ pre) := by
  induction evs with
  | nil =>
    intro s
    refine ⟨fun s' _ => ⟨by simp [watchRun], fun e => by simp [watchRun]⟩,
      fun e he => ?_, fun he => ?_⟩ <;> simp [watchRun] at he
  | cons ev evs ih =>
    intro s
    rcases watchStep_shapes s ev with ⟨e, _, hstep⟩ | ⟨acts, s', hstep, hcl, hre⟩ |
      ⟨acts, hstep, hcl, hre⟩
    · have hrun : watchRun s (ev :: evs) =
          ([.recordErr e, .closeChan], .closed (some e)) := by
        rw [watchRun, hstep]
      rw [hrun]
      refine ⟨?_, ?_, ?_⟩
      · intro s' h
        cases h
      · intro e' he'
        cases he'
        exact ⟨[], by simp, by simp, fun e'' => by simp⟩
      · intro he'
        cases he'
    · have hrun : watchRun s (ev :: evs) =
          (acts ++ (watchRun s' evs).1, (watchRun s' evs).2) := by
        rw [watchRun, hstep]
      rw [hrun]
      obtain ⟨ihA, ihB, ihC⟩ := ih s'
      refine ⟨fun s'' h => ?_, fun e' he' => ?_, fun he' => ?_⟩
      · obtain ⟨h1, h2⟩ := ihA s'' h
        refine ⟨?_, fun e' => ?_⟩
        · intro hm
          rcases List.mem_append.mp hm with h' | h'
          · exact hcl h'
          · exact h1 h'
        · intro hm
          rcases List.mem_append.mp hm with h' | h'
          · exact hre e' h'
          · exact h2 e' h'
      · obtain ⟨pre, hpre, hp1, hp2⟩ := ihB e' he'
        refine ⟨acts ++ pre, by rw [hpre, List.append_assoc], ?_, fun e'' => ?_⟩
        · intro hm
          rcases List.mem_append.mp hm with h' | h'
          · exact hcl h'
          · exact hp1 h'
        · intro hm
          rcases List.mem_append.mp hm with h' | h'
          · exact hre e'' h'
          · exact hp2 e'' h'
      · obtain ⟨pre, hpre, hp1, hp2⟩ := ihC he'
        refine ⟨acts ++ pre, by rw [hpre, List.append_assoc], ?_, fun e'' => ?_⟩
        · intro hm
          rcases List.mem_append.mp hm with h' | h'
          · exact hcl h'
          · exact hp1 h'
        · intro hm
          rcases List.mem_append.mp hm with h' | h'
          · exact hre e'' h'
          · exact hp2 e'' h'
    · have hrun : watchRun s (ev :: evs) =
          (acts ++ [.closeChan], .closed none) := by
        rw [watchRun, hstep]
      rw [hrun]
      refine ⟨?_, ?_, ?_⟩
      · intro s' h
        cases h
      · intro e' he'
        cases he'
      · intro _
        exact ⟨acts, rfl, hcl, hre⟩

/-- A schedule of stat-successes whose sends all hit the refresh timeout:
the loop neither notifies nor sleeps nor updates its snapshot. -/
theorem watchRun_timeouts (s : WState) (ms : List FileMeta)
    (h : ∀ m ∈ ms, metaChanged s m = true) :
    watchRun s (ms.map fun m => ⟨.ok m, .timeout, .elapsed⟩) =
      ([], .running s) := by
  induction ms with
  | nil => rfl
  | cons m ms ih =>
    rw [List.map_cons, watchRun]
    have hstep : watchStep s ⟨.ok m, .timeout, .elapsed⟩ = ([], .next s) := by
      simp [watchStep, h m (List.mem_cons_self m ms)]
    rw [hstep]
    dsimp only
    rw [ih (fun m' hm' => h m' (List.mem_cons_of_mem m hm'))]
    rfl

/-! ## Scanner trace lemmas -/

theorem runOp_read_found (st : LineReader) (h10 : 10 ∈ st.input) :
    runOp st .read =
      (⟨st.bufSize, st.bufPos,
        st.input.drop ((st.input.takeWhile notNL).length + 1),
        st.nextPosition + ((st.input.takeWhile notNL).length + 1), []⟩,
       some ⟨dropCR (st.buffer ++ st.input.takeWhile notNL),
             st.buffer.length + ((st.input.takeWhile notNL).length + 1)⟩) := by
  rw [runOp, ReadLine_found st h10]
  dsimp only
  rw [Nat.add_sub_cancel_left]

theorem runOp_read_eof (st : LineReader) (h10 : 10 ∉ st.input) :
    runOp st .read =
      (⟨st.bufSize, st.bufPos, [], st.nextPosition + st.input.length,
        st.buffer ++ st.input⟩, none) := by
  rw [runOp, ReadLine_eof st h10]

theorem runOp_readLast_found (st : LineReader) (h10 : 10 ∈ st.input) :
    runOp st .readLast =
      (⟨st.bufSize, st.bufPos,
        st.input.drop ((st.input.takeWhile notNL).length + 1),
        st.nextPosition + ((st.input.takeWhile notNL).length + 1), []⟩,
       some ⟨dropCR (st.buffer ++ st.input.takeWhile notNL),
             st.buffer.length + ((st.input.takeWhile notNL).length + 1)⟩) := by
  rw [runOp, ReadLastLine_found st h10]
  dsimp only
  rw [Nat.add_sub_cancel_left]

theorem runOp_readLast_eof (st : LineReader) (h10 : 10 ∉ st.input) :
    runOp st .readLast =
      (⟨st.bufSize, st.bufPos, [], st.nextPosition + st.input.length, []⟩,
       some ⟨st.buffer ++ st.input,
             st.buffer.length + st.input.length⟩) := by
  rw [runOp, ReadLastLine_eof st h10]
  dsimp only
  rw [Nat.add_sub_cancel_left]

theorem runOp_append (st : LineReader) (bs : List Nat) :
    runOp st (.append bs) = (appendBytes st bs, none) := rfl

/-- The final position of a step never falls below the starting one, and
a step that emitted nothing with an unchanged buffer keeps the
position-minus-pending quantity; in all cases the step's bookkeeping is
captured by the three facts proved below directly per case. -/
theorem runOp_pos_mono (st : LineReader) (op : LROp) :
    st.nextPosition ≤ (runOp st op).1.nextPosition := by
  cases op with
  | append bs => simp [runOp, appendBytes]
  | read =>
    by_cases h10 : 10 ∈ st.input
    · rw [runOp_read_found st h10]
      dsimp only
      omega
    · rw [runOp_read_eof st h10]
      dsimp only
      omega
  | readLast =>
    by_cases h10 : 10 ∈ st.input
    · rw [runOp_readLast_found st h10]
      dsimp only
      omega
    · rw [runOp_readLast_eof st h10]
      dsimp only
      omega

theorem runOps_pos_mono (ops : List LROp) :
    ∀ st : LineReader, st.nextPosition ≤ (runOps st ops).1.nextPosition := by
  induction ops with
  | nil => intro st; exact Nat.le_refl _
  | cons op ops ih =>
    intro st
    rw [runOps]
    exact Nat.le_trans (runOp_pos_mono st op) (ih (runOp st op).1)

theorem runOps_append (a : List LROp) :
    ∀ (st : LineReader) (b : List LROp),
    runOps st (a ++ b) =
      ((runOps (runOps st a).1 b).1,
       (runOps st a).2 ++ (runOps (runOps st a).1 b).2) := by
  induction a with
  | nil => intro st b; simp [runOps]
  | cons op a' ih =>
    intro st b
    rw [List.cons_append, runOps, runOps, ih]
    dsimp only
    rw [List.append_assoc]

/-- The bookkeeping invariant: across any trace, the final `nextPosition`
differs from the starting one by exactly the recorded byte footprints of
the emitted lines plus the growth of the pending buffer. -/
theorem runOps_accounting (ops : List LROp) :
    ∀ st : LineReader,
    (runOps st ops).1.nextPosition + st.buffer.length =
      st.nextPosition + ((runOps st ops).2.map Emitted.bytes).sum +
        (runOps st ops).1.buffer.length := by
  induction ops with
  | nil => intro st; simp [runOps]
  | cons op ops ih =>
    intro st
    rw [runOps]
    cases op with
    | append bs =>
      have h := ih (appendBytes st bs)
      simp only [runOp, Option.toList, List.nil_append, appendBytes] at h ⊢
      omega
    | read =>
      by_cases h10 : 10 ∈ st.input
      · rw [runOp_read_found st h10]
        have h := ih ⟨st.bufSize, st.bufPos,
          st.input.drop ((st.input.takeWhile notNL).length + 1),
          st.nextPosition + ((st.input.takeWhile notNL).length + 1), []⟩
        dsimp only at h ⊢
        simp only [Option.toList, List.singleton_append, List.map_cons,
          List.sum_cons, List.length_nil] at h ⊢
        omega
      · rw [runOp_read_eof st h10]
        have h := ih ⟨st.bufSize, st.bufPos, [],
          st.nextPosition + st.input.length, st.buffer ++ st.input⟩
        dsimp only at h ⊢
        simp only [List.length_append] at h
        simp only [Option.toList, List.nil_append]
        omega
    | readLast =>
      by_cases h10 : 10 ∈ st.input
      · rw [runOp_readLast_found st h10]
        have h := ih ⟨st.bufSize, st.bufPos,
          st.input.drop ((st.input.takeWhile notNL).length + 1),
          st.nextPosition + ((st.input.takeWhile notNL).length + 1), []⟩
        dsimp only at h ⊢
        simp only [Option.toList, List.singleton_append, List.map_cons,
          List.sum_cons, List.length_nil] at h ⊢
        omega
      · rw [runOp_readLast_eof st h10]
        have h := ih ⟨st.bufSize, st.bufPos, [],
          st.nextPosition + st.input.length, []⟩
        dsimp only at h ⊢
        simp only [Option.toList, List.singleton_append, List.map_cons,
          List.sum_cons, List.length_nil, List.length_append] at h ⊢
        omega

/-- Every recorded byte footprint covers the line and at most two extra
terminator bytes. -/
theorem runOps_bytes_bound (ops : List LROp) :
    ∀ st : LineReader, ∀ em ∈ (runOps st ops).2,
    em.line.length ≤ em.bytes ∧ em.bytes ≤ em.line.length + 2 := by
  induction ops with
  | nil => intro st em hm; simp [runOps] at hm
  | cons op ops ih =>
    intro st em hm
    rw [runOps] at hm
    dsimp only at hm
    rcases List.mem_append.mp hm with hm' | hm'
    · cases op with
      | append bs => simp [runOp, appendBytes] at hm'
      | read =>
        by_cases h10 : 10 ∈ st.input
        · rw [runOp_read_found st h10] at hm'
          simp only [Option.toList, List.mem_singleton] at hm'
          subst hm'
          have hb := dropCR_length (st.buffer ++ st.input.takeWhile notNL)
          rw [List.length_append] at hb
          dsimp only
          omega
        · rw [runOp_read_eof st h10] at hm'
          simp at hm'
      | readLast =>
        by_cases h10 : 10 ∈ st.input
        · rw [runOp_readLast_found st h10] at hm'
          simp only [Option.toList, List.mem_singleton] at hm'
          subst hm'
          have hb := dropCR_length (st.buffer ++ st.input.takeWhile notNL)
          rw [List.length_append] at hb
          dsimp only
          omega
        · rw [runOp_readLast_eof st h10] at hm'
          simp only [Option.toList, List.mem_singleton] at hm'
          subst hm'
          dsimp only
          rw [List.length_append]
          omega
    · exact ih (runOp st op).1 em hm'

/-! ## Claim theorems -/

/-- Claim C1: whenever `ReadLine` finds a newline terminator (in either
source version) it returns the accumulated line content with the
terminator excluded and a single trailing CR stripped, the updated
`nextPosition` equal to the byte offset immediately after the consumed
terminator, and no error, resetting the pending buffer to empty;
consequently repeated `ReadLine` calls over a stream of appended
terminated lines reproduce the lines in order and byte-identically. -/
theorem c1_terminated_line_read :
    (∀ st : LineReader, 10 ∈ st.input →
      ReadLine st =
        ((some (dropCR (st.buffer ++ st.input.takeWhile notNL)),
          st.nextPosition + ((st.input.takeWhile notNL).length + 1), none),
         ⟨st.bufSize, st.bufPos,
          st.input.drop ((st.input.takeWhile notNL).length + 1),
          st.nextPosition + ((st.input.takeWhile notNL).length + 1), []⟩)) ∧
    (∀ st : LineReaderFin, 10 ∈ st.input →
      ReadLineFin st =
        ((some (dropCR (st.buffer ++ st.input.takeWhile notNL)),
          st.nextPosition + ((st.input.takeWhile notNL).length + 1), none),
         ⟨st.bufSize, st.bufPos,
          st.input.drop ((st.input.takeWhile notNL).length + 1),
          st.nextPosition + ((st.input.takeWhile notNL).length + 1), [],
          st.finalized⟩)) ∧
    (∀ (bufSize : Nat) (hb : 0 < bufSize) (ls : List (List Nat)),
      (∀ l ∈ ls, 10 ∉ l ∧ l.getLast? ≠ some 13) →
      readLineList ls.length (NewLineReader bufSize hb (encodeLines ls)) =
        (ls, ⟨bufSize, hb, [], (encodeLines ls).length, []⟩)) := by
  refine ⟨ReadLine_found, ReadLineFin_found, fun bufSize hb ls hwf => ?_⟩
  have h := readLineList_encode ls (NewLineReader bufSize hb (encodeLines ls))
    [] hwf rfl (by simp [NewLineReader])
  rw [h]
  refine congrArg₂ Prod.mk rfl (LineReader.eqOfFields rfl rfl ?_ rfl)
  simp [NewLineReader]

theorem c1_witness :
    (10 ∈ ([104, 105, 10, 120] : List Nat)) ∧
    (ReadLine ⟨4, by decide, [104, 105, 10, 120], 0, []⟩).1 =
      (some [104, 105], 3, none) ∧
    (ReadLine ⟨4, by decide, [104, 105, 10, 120], 0, []⟩).2.buffer = [] ∧
    (ReadLineFin ⟨4, by decide, [104, 13, 10, 120], 0, [], false⟩).1 =
      (some [104], 3, none) ∧
    readLineList 2 (NewLineReader 3 (by decide) (encodeLines [[97], [98, 99]])) =
      ([[97], [98, 99]], ⟨3, by decide, [], 5, []⟩) := by
  obtain ⟨h1, h2, h3⟩ := c1_terminated_line_read
  refine ⟨by decide, ?_, ?_, ?_, ?_⟩
  · rw [h1 ⟨4, by decide, [104, 105, 10, 120], 0, []⟩ (by decide)]
    decide
  · rw [h1 ⟨4, by decide, [104, 105, 10, 120], 0, []⟩ (by decide)]
  · rw [h2 ⟨4, by decide, [104, 13, 10, 120], 0, [], false⟩ (by decide)]
    decide
  · exact h3 3 (by decide) [[97], [98, 99]] (by decide)

/-- Claim C2: when the currently available bytes contain no terminator,
`ReadLine` returns the no-complete-line-yet outcome `io.EOF` carrying no
line and no offset, merely folding those bytes into the preserved pending
buffer (in particular, with nothing available the state is untouched);
repeated calls with no further writes return the same outcome, and a call
after new bytes arrive behaves exactly as if all the bytes had been
available at once. -/
theorem c2_no_line_yet (st : LineReader) (h10 : 10 ∉ st.input) :
    ReadLine st =
      ((none, 0, some .eof),
       ⟨st.bufSize, st.bufPos, [], st.nextPosition + st.input.length,
        st.buffer ++ st.input⟩) ∧
    ReadLine ⟨st.bufSize, st.bufPos, [], st.nextPosition + st.input.length,
        st.buffer ++ st.input⟩ =
      ((none, 0, some .eof),
       ⟨st.bufSize, st.bufPos, [], st.nextPosition + st.input.length,
        st.buffer ++ st.input⟩) ∧
    ∀ bs : List Nat,
      ReadLine ⟨st.bufSize, st.bufPos, bs,
        st.nextPosition + st.input.length, st.buffer ++ st.input⟩ =
      ReadLine ⟨st.bufSize, st.bufPos, st.input ++ bs, st.nextPosition,
        st.buffer⟩ := by
  refine ⟨ReadLine_eof st h10, ?_, fun bs => ReadLine_split st bs h10⟩
  rw [ReadLine_eof _ (by simp)]
  refine congrArg₂ Prod.mk rfl (LineReader.eqOfFields rfl rfl ?_ ?_)
  · simp
  · simp

theorem c2_witness :
    (10 ∉ ([104, 101] : List Nat)) ∧
    (ReadLine ⟨4, by decide, [104, 101], 7, [120]⟩).1 = (none, 0, some .eof) ∧
    (ReadLine ⟨4, by decide, [104, 101], 7, [120]⟩).2.buffer = [120, 104, 101] ∧
    (ReadLine ⟨4, by decide, [], 9, [120, 104, 101]⟩).1 = (none, 0, some .eof) ∧
    ReadLine ⟨4, by decide, [108, 10], 9, [120, 104, 101]⟩ =
      ReadLine ⟨4, by decide, [104, 101, 108, 10], 7, [120]⟩ := by
  obtain ⟨h1, h2, h3⟩ := c2_no_line_yet ⟨4, by decide, [104, 101], 7, [120]⟩
    (by decide)
  refine ⟨by decide, ?_, ?_, ?_, ?_⟩
  · exact congrArg Prod.fst h1
  · exact congrArg (fun p => p.2.buffer) h1
  · exact congrArg Prod.fst h2
  · exact h3 [108, 10]

/-- Claim C5: after reading the first lines of a terminated-line stream,
the offset the scanner reports is exactly the byte length of what was
consumed, and a fresh reader constructed with `NewLineReaderAtPosition`
on the same stream seeked to that offset yields exactly the remaining
lines, in order and byte-identical; moreover the offset a successful
`ReadLine` returns always coincides with the resume position of its
post-state. -/
theorem c5_resume (bufSize : Nat) (hb : 0 < bufSize) (A B : List (List Nat))
    (hwf : ∀ l ∈ A ++ B, 10 ∉ l ∧ l.getLast? ≠ some 13) :
    readLineList A.length (NewLineReader bufSize hb (encodeLines (A ++ B))) =
      (A, ⟨bufSize, hb, encodeLines B, (encodeLines A).length, []⟩) ∧
    readLineList B.length
        (NewLineReaderAtPosition bufSize hb (encodeLines (A ++ B))
          (encodeLines A).length) =
      (B, ⟨bufSize, hb, [], (encodeLines A).length + (encodeLines B).length,
           []⟩) ∧
    (∀ st : LineReader, 10 ∈ st.input →
      (ReadLine st).1.2.1 = (ReadLine st).2.nextPosition) := by
  have hwA : ∀ l ∈ A, 10 ∉ l ∧ l.getLast? ≠ some 13 :=
    fun l hl => hwf l (List.mem_append.mpr (Or.inl hl))
  have hwB : ∀ l ∈ B, 10 ∉ l ∧ l.getLast? ≠ some 13 :=
    fun l hl => hwf l (List.mem_append.mpr (Or.inr hl))
  refine ⟨?_, ?_, fun st h10 => by rw [ReadLine_found st h10]⟩
  · have h := readLineList_encode A (NewLineReader bufSize hb
      (encodeLines (A ++ B))) (encodeLines B) hwA rfl
      (by simp [NewLineReader, encodeLines_append])
    rw [h]
    refine congrArg₂ Prod.mk rfl (LineReader.eqOfFields rfl rfl ?_ rfl)
    simp [NewLineReader]
  · have hdrop : (encodeLines (A ++ B)).drop (encodeLines A).length =
        encodeLines B := by
      rw [encodeLines_append, List.drop_left]
    have h := readLineList_encode B (NewLineReaderAtPosition bufSize hb
      (encodeLines (A ++ B)) (encodeLines A).length) [] hwB rfl
      (by simp [NewLineReaderAtPosition, hdrop])
    rw [h]
    rfl

theorem c5_witness :
    (∀ l ∈ ([[97], [98]] ++ [[99, 100]] : List (List Nat)),
      10 ∉ l ∧ l.getLast? ≠ some 13) ∧
    readLineList 2 (NewLineReader 3 (by decide)
        (encodeLines ([[97], [98]] ++ [[99, 100]]))) =
      ([[97], [98]], ⟨3, by decide, encodeLines [[99, 100]], 4, []⟩) ∧
    readLineList 1 (NewLineReaderAtPosition 3 (by decide)
        (encodeLines ([[97], [98]] ++ [[99, 100]])) 4) =
      ([[99, 100]], ⟨3, by decide, [], 7, []⟩) := by
  obtain ⟨h1, h2, _⟩ := c5_resume 3 (by decide) [[97], [98]] [[99, 100]]
    (by decide)
  exact ⟨by decide, h1, h2⟩

/-- Claim C6 counterexample: `ReadLine` on a finalized scanner at end of
data, with pending bytes `"line\r"`, returns those bytes (with the CR
preserved) but reports the error `io.EOF` rather than no error, refuting
the claim that the force-last-line operation reports no error in this
variant. -/
theorem c6_counterexample :
    (ReadLineFin ⟨16, by decide, [], 5, [108, 105, 110, 101, 13], true⟩).1.1 =
      some [108, 105, 110, 101, 13] ∧
    (ReadLineFin ⟨16, by decide, [], 5, [108, 105, 110, 101, 13], true⟩).1.2.2 =
      some ReadErr.eof ∧
    (ReadLineFin ⟨16, by decide, [], 5, [108, 105, 110, 101, 13], true⟩).1.2.2 ≠
      none := by
  refine ⟨?_, ?_, ?_⟩ <;> decide

/-- Claim C6, amended: the force-last-line operation returns the pending
bytes verbatim — no CR stripping, a trailing CR is preserved — and clears
the pending buffer; `ReadLastLine` reports no error for this call, while
`ReadLine` on a finalized scanner at end of data (with non-empty pending
data) returns the line and its position alongside the `io.EOF` error
rather than with no error. -/
theorem c6_amended :
    (∀ st : LineReader, 10 ∉ st.input →
      ReadLastLine st =
        ((some (st.buffer ++ st.input), none),
         ⟨st.bufSize, st.bufPos, [], st.nextPosition + st.input.length,
          []⟩)) ∧
    (∀ st : LineReaderFin, 10 ∉ st.input → st.finalized = true →
      st.buffer ++ st.input ≠ [] →
      ReadLineFin st =
        ((some (st.buffer ++ st.input), st.nextPosition + st.input.length,
          some .eof),
         ⟨st.bufSize, st.bufPos, [], st.nextPosition + st.input.length, [],
          true⟩)) :=
  ⟨ReadLastLine_eof, ReadLineFin_eof_fin⟩

theorem c6_amended_witness :
    (10 ∉ ([13] : List Nat)) ∧
    (ReadLastLine ⟨16, by decide, [13], 4, [108, 105, 110, 101]⟩).1 =
      (some [108, 105, 110, 101, 13], none) ∧
    (ReadLastLine ⟨16, by decide, [13], 4, [108, 105, 110, 101]⟩).2.buffer =
      [] ∧
    (ReadLineFin ⟨16, by decide, [], 5, [108, 105, 110, 101, 13], true⟩).1 =
      (some [108, 105, 110, 101, 13], 5, some ReadErr.eof) := by
  obtain ⟨h1, h2⟩ := c6_amended
  refine ⟨by decide, ?_, ?_, ?_⟩
  · exact congrArg Prod.fst
      (h1 ⟨16, by decide, [13], 4, [108, 105, 110, 101]⟩ (by decide))
  · exact congrArg (fun p => p.2.buffer)
      (h1 ⟨16, by decide, [13], 4, [108, 105, 110, 101]⟩ (by decide))
  · exact congrArg Prod.fst
      (h2 ⟨16, by decide, [], 5, [108, 105, 110, 101, 13], true⟩ (by decide)
        rfl (by decide))

/-- Claim C7: a full buffer-sized chunk with no terminator is not treated
as end of data — `ReadLine` folds the chunk into the pending buffer and
keeps pulling — so a line longer than the internal buffer (for example
1000 bytes against an internal read size of 5) is still returned whole
and byte-identical, with no length ceiling tied to the buffer size. -/
theorem c7_no_length_ceiling :
    (∀ (st : LineReader) (fuel : Nat) (read : List Nat),
      ReadSlice st.bufSize st.input = (read, some .bufferFull) →
      ReadLineGo (fuel + 1) st = ReadLineGo fuel (advance st read)) ∧
    (∀ st : LineReader, 10 ∈ st.input →
      st.bufSize ≤ (st.input.takeWhile notNL).length →
      (ReadLine st).1.1 =
        some (dropCR (st.buffer ++ st.input.takeWhile notNL))) ∧
    ReadLine (NewLineReader 5 (by decide)
        (List.replicate 1000 48 ++ [10])) =
      ((some (List.replicate 1000 48), 1001, none),
       ⟨5, by decide, [], 1001, []⟩) := by
  refine ⟨fun st fuel read h => by rw [ReadLineGo, h], ?_, ?_⟩
  · intro st h10 _
    rw [ReadLine_found st h10]
  · have h10 : (10 : Nat) ∉ List.replicate 1000 48 := fun h =>
      absurd (List.eq_of_mem_replicate h) (by decide)
    have hpre : (List.replicate 1000 48 ++ [10]).takeWhile notNL =
        List.replicate 1000 48 := takeWhile_notNL_append_cons h10 []
    have hmem : 10 ∈ List.replicate 1000 48 ++ [10] :=
      List.mem_append.mpr (Or.inr (List.mem_singleton.mpr rfl))
    rw [ReadLine_found _ hmem]
    dsimp only [NewLineReader]
    rw [hpre]
    have hlastAux : ∀ (n : Nat) (a : Nat),
        (List.replicate (n + 1) a).getLast? = some a := by
      intro n a
      rw [List.replicate_succ', List.getLast?_concat]
    have hlast : (List.replicate 1000 48).getLast? = some 48 := hlastAux 999 48
    rw [List.nil_append, dropCR_eq_self (by rw [hlast]; decide),
      List.length_replicate]
    refine congrArg₂ Prod.mk ?_ (LineReader.eqOfFields rfl ?_ ?_ rfl)
    · refine congrArg₂ Prod.mk rfl (congrArg₂ Prod.mk (by omega) rfl)
    · apply List.drop_eq_nil_of_le
      rw [List.length_append, List.length_replicate]
      decide
    · dsimp only

theorem c7_witness :
    (ReadSlice 2 ([97, 98, 99, 10] : List Nat) = ([97, 98], some .bufferFull)) ∧
    ReadLineGo 5 ⟨2, by decide, [97, 98, 99, 10], 0, []⟩ =
      ReadLineGo 4 (advance ⟨2, by decide, [97, 98, 99, 10], 0, []⟩ [97, 98]) ∧
    (10 ∈ ([97, 98, 99, 10] : List Nat)) ∧
    (2 ≤ (([97, 98, 99, 10] : List Nat).takeWhile notNL).length) ∧
    (ReadLine ⟨2, by decide, [97, 98, 99, 10], 0, []⟩).1.1 =
      some [97, 98, 99] := by
  obtain ⟨h1, h2, _⟩ := c7_no_length_ceiling
  refine ⟨by decide, ?_, by decide, by decide, ?_⟩
  · exact h1 ⟨2, by decide, [97, 98, 99, 10], 0, []⟩ 4 [97, 98] (by decide)
  · rw [h2 ⟨2, by decide, [97, 98, 99, 10], 0, []⟩ (by decide) (by decide)]
    decide

/-- Claim C10: when un-consumed terminated data is available,
`ReadLastLine` does not flush the pending buffer: it performs a normal
`ReadLine` and returns that next complete line with the terminator
removed and a trailing CR stripped, with a nil error; only when the read
ends in `io.EOF` does it return the raw accumulated buffer verbatim
(clearing it), again with a nil error. -/
theorem c10_read_last_line (st : LineReader) :
    (10 ∈ st.input →
      ReadLastLine st =
        ((some (dropCR (st.buffer ++ st.input.takeWhile notNL)), none),
         ⟨st.bufSize, st.bufPos,
          st.input.drop ((st.input.takeWhile notNL).length + 1),
          st.nextPosition + ((st.input.takeWhile notNL).length + 1), []⟩)) ∧
    (10 ∉ st.input →
      ReadLastLine st =
        ((some (st.buffer ++ st.input), none),
         ⟨st.bufSize, st.bufPos, [], st.nextPosition + st.input.length,
          []⟩)) :=
  ⟨ReadLastLine_found st, ReadLastLine_eof st⟩

theorem c10_witness :
    (10 ∈ ([104, 13, 10, 120] : List Nat)) ∧
    (ReadLastLine ⟨4, by decide, [104, 13, 10, 120], 0, []⟩).1 =
      (some [104], none) ∧
    (10 ∉ ([104, 13] : List Nat)) ∧
    (ReadLastLine ⟨4, by decide, [104, 13], 0, []⟩).1 =
      (some [104, 13], none) := by
  refine ⟨by decide, ?_, by decide, ?_⟩
  · exact congrArg Prod.fst
      ((c10_read_last_line ⟨4, by decide, [104, 13, 10, 120], 0, []⟩).1
        (by decide))
  · exact congrArg Prod.fst
      ((c10_read_last_line ⟨4, by decide, [104, 13], 0, []⟩).2 (by decide))

/-- Claim C3: when a notification send does not complete before the
refresh timeout, the send attempt is abandoned without updating
`lastSize`/`lastModTime` and the loop re-polls immediately (no sleep, no
notification); the snapshot is updated only on a successful send; hence
any number of metadata changes occurring while a single send is pending
collapse into exactly one further notification, never more. -/
theorem c3_refresh_timeout_collapse :
    (∀ (s : WState) (m : FileMeta) (slp : SleepOutcome),
      metaChanged s m = true →
      watchStep s ⟨.ok m, .timeout, slp⟩ = ([], .next s)) ∧
    (∀ (s : WState) (ev : PollEvent) (acts : List WAction) (s' : WState),
      watchStep s ev = (acts, .next s') → ev.send ≠ .sent → s' = s) ∧
    (∀ (s : WState) (ms : List FileMeta) (m' : FileMeta) (slp : SleepOutcome),
      (∀ m ∈ ms, metaChanged s m = true) → metaChanged s m' = true →
      (watchRun s ((ms.map fun m => ⟨.ok m, .timeout, .elapsed⟩) ++
          [⟨.ok m', .sent, slp⟩])).1.count .notify = 1) := by
  refine ⟨?_, ?_, ?_⟩
  · intro s m slp h
    simp [watchStep, h]
  · intro s ev acts s' hstep hsend
    obtain ⟨stat, send, sleep⟩ := ev
    cases stat with
    | err e => simp [watchStep] at hstep
    | ok m =>
      by_cases hc : metaChanged s m
      · cases send with
        | sent => exact absurd rfl hsend
        | cancelled => simp [watchStep, hc] at hstep
        | timeout =>
          simp only [watchStep, hc, if_pos] at hstep
          exact (Prod.mk.injEq _ _ _ _ ▸ hstep).2 |> fun h =>
            (StepOut.next.injEq _ _ ▸ h).symm
      · cases sleep with
        | elapsed =>
          simp only [watchStep, hc, if_neg] at hstep
          exact (Prod.mk.injEq _ _ _ _ ▸ hstep).2 |> fun h =>
            (StepOut.next.injEq _ _ ▸ h).symm
        | cancelled => simp [watchStep, hc] at hstep
  · intro s ms m' slp hms hm'
    rw [watchRun_append, watchRun_timeouts s ms hms]
    show ([] ++ (watchRun s [⟨.ok m', .sent, slp⟩]).1).count WAction.notify = 1
    cases slp with
    | elapsed =>
      have hstep : watchStep s ⟨.ok m', .sent, .elapsed⟩ =
          ([.notify, .sleep], .next ⟨m'.size, m'.modTime⟩) := by
        simp [watchStep, hm']
      rw [List.nil_append, watchRun, hstep]
      simp [watchRun, List.count_cons, List.count_nil]
    | cancelled =>
      have hstep : watchStep s ⟨.ok m', .sent, .cancelled⟩ =
          ([.notify, .closeChan], .stop none) := by
        simp [watchStep, hm']
      rw [List.nil_append, watchRun, hstep]
      simp [List.count_cons, List.count_nil]

theorem c3_witness :
    (metaChanged watchInit ⟨1, 0⟩ = true) ∧
    watchStep watchInit ⟨.ok ⟨1, 0⟩, .timeout, .elapsed⟩ =
      ([], .next watchInit) ∧
    ((watchRun watchInit ((([⟨1, 0⟩, ⟨2, 0⟩] : List FileMeta).map
        fun m => ⟨.ok m, .timeout, .elapsed⟩) ++
        [⟨.ok ⟨3, 0⟩, .sent, .elapsed⟩])).1.count .notify = 1) ∧
    SendOutcome.timeout ≠ SendOutcome.sent ∧ watchInit = watchInit := by
  obtain ⟨h1, h2, h3⟩ := c3_refresh_timeout_collapse
  refine ⟨by decide, h1 watchInit ⟨1, 0⟩ .elapsed (by decide),
    h3 watchInit [⟨1, 0⟩, ⟨2, 0⟩] ⟨3, 0⟩ .elapsed (by decide) (by decide),
    by decide,
    h2 watchInit ⟨.ok ⟨1, 0⟩, .timeout, .elapsed⟩ [] watchInit
      (h1 watchInit ⟨1, 0⟩ .elapsed (by decide)) (by decide)⟩

/-- Claim C4: the notification channel is closed exactly once (the action
trace of a run never holds more than one close), and only after
`terminalError` has been recorded: a stat failure ends the trace with the
error record immediately followed by the close, and `Err()` observed
after the closure returns that error; a cancellation closure records no
error and leaves `Err()` returning nil; while the loop is still running
no close has been emitted. -/
theorem c4_close_once_after_error (evs : List PollEvent) :
    ((watchRun watchInit evs).1.count .closeChan ≤ 1) ∧
    (∀ e, (watchRun watchInit evs).2 = .closed (some e) →
      (∃ pre, (watchRun watchInit evs).1 = pre ++ [.recordErr e, .closeChan] ∧
        WAction.closeChan ∉ pre) ∧
      watchErr (watchRun watchInit evs).2 = some e) ∧
    ((watchRun watchInit evs).2 = .closed none →
      (∀ e, WAction.recordErr e ∉ (watchRun watchInit evs).1) ∧
      (∃ pre, (watchRun watchInit evs).1 = pre ++ [.closeChan] ∧
        WAction.closeChan ∉ pre) ∧
      watchErr (watchRun watchInit evs).2 = none) ∧
    (∀ s', (watchRun watchInit evs).2 = .running s' →
      WAction.closeChan ∉ (watchRun watchInit evs).1 ∧
      watchErr (watchRun watchInit evs).2 = none) := by
  obtain ⟨hA, hB, hC⟩ := watchRun_shapes evs watchInit
  refine ⟨?_, ?_, ?_, ?_⟩
  · rcases hstat : (watchRun watchInit evs).2 with s' | e?
    · have := (hA s' hstat).1
      rw [List.count_eq_zero.mpr this]
      omega
    · cases e? with
      | none =>
        obtain ⟨pre, hpre, hp1, _⟩ := hC hstat
        rw [hpre, List.count_append, List.count_eq_zero.mpr hp1]
        simp [List.count_cons, List.count_nil]
      | some e =>
        obtain ⟨pre, hpre, hp1, _⟩ := hB e hstat
        rw [hpre, List.count_append, List.count_eq_zero.mpr hp1]
        simp [List.count_cons, List.count_nil]
  · intro e hstat
    obtain ⟨pre, hpre, hp1, _⟩ := hB e hstat
    rw [hstat]
    exact ⟨⟨pre, hpre, hp1⟩, rfl⟩
  · intro hstat
    obtain ⟨pre, hpre, hp1, hp2⟩ := hC hstat
    rw [hstat]
    refine ⟨fun e hm => ?_, ⟨pre, hpre, hp1⟩, rfl⟩
    rw [hpre] at hm
    rcases List.mem_append.mp hm with h' | h'
    · exact hp2 e h'
    · simp at h'
  · intro s' hstat
    rw [hstat]
    exact ⟨(hA s' hstat).1, rfl⟩

theorem c4_witness :
    (watchRun watchInit [⟨.ok ⟨1, 0⟩, .sent, .elapsed⟩,
        ⟨.err 7, .sent, .elapsed⟩]).2 = .closed (some 7) ∧
    watchErr (watchRun watchInit [⟨.ok ⟨1, 0⟩, .sent, .elapsed⟩,
        ⟨.err 7, .sent, .elapsed⟩]).2 = some 7 ∧
    (∃ pre, (watchRun watchInit [⟨.ok ⟨1, 0⟩, .sent, .elapsed⟩,
        ⟨.err 7, .sent, .elapsed⟩]).1 =
        pre ++ [.recordErr 7, .closeChan] ∧ WAction.closeChan ∉ pre) ∧
    (watchRun watchInit [⟨.ok ⟨1, 0⟩, .sent, .cancelled⟩]).2 =
      .closed none ∧
    watchErr (watchRun watchInit [⟨.ok ⟨1, 0⟩, .sent, .cancelled⟩]).2 =
      none ∧
    (∀ e, WAction.recordErr e ∉
      (watchRun watchInit [⟨.ok ⟨1, 0⟩, .sent, .cancelled⟩]).1) ∧
    (watchRun watchInit [⟨.ok ⟨1, 0⟩, .sent, .elapsed⟩,
        ⟨.err 7, .sent, .elapsed⟩]).1.count .closeChan ≤ 1 := by
  refine ⟨by decide, ?_, ?_, by decide, ?_, ?_, ?_⟩
  · exact ((c4_close_once_after_error [⟨.ok ⟨1, 0⟩, .sent, .elapsed⟩,
      ⟨.err 7, .sent, .elapsed⟩]).2.1 7 (by decide)).2
  · exact ((c4_close_once_after_error [⟨.ok ⟨1, 0⟩, .sent, .elapsed⟩,
      ⟨.err 7, .sent, .elapsed⟩]).2.1 7 (by decide)).1
  · exact (((c4_close_once_after_error
      [⟨.ok ⟨1, 0⟩, .sent, .cancelled⟩]).2.2.1 (by decide)).2.2)
  · exact (((c4_close_once_after_error
      [⟨.ok ⟨1, 0⟩, .sent, .cancelled⟩]).2.2.1 (by decide)).1)
  · exact (c4_close_once_after_error [⟨.ok ⟨1, 0⟩, .sent, .elapsed⟩,
      ⟨.err 7, .sent, .elapsed⟩]).1

/-- Claim C9 counterexample: the watcher initializes its snapshot to
`lastSize = 0`, `lastModTime = time.Unix(0, 0)`; for a file whose first
stat succeeds with size 0 and modification time equal to the Unix epoch,
the first poll does not yield a change — no notification is attempted —
refuting "the first poll always yields a change regardless of the file's
actual size and modification time". -/
theorem c9_counterexample :
    metaChanged watchInit ⟨0, 0⟩ = false ∧
    watchStep watchInit ⟨.ok ⟨0, 0⟩, .sent, .elapsed⟩ =
      ([.sleep], .next watchInit) ∧
    WAction.notify ∉ (watchStep watchInit ⟨.ok ⟨0, 0⟩, .sent, .elapsed⟩).1 := by
  refine ⟨?_, ?_, ?_⟩ <;> decide

/-- Claim C9, amended: the initial snapshot is `lastSize = 0`,
`lastModTime = Unix(0, 0)`, so for every file whose first metadata query
succeeds with a non-zero size or a modification time different from the
Unix epoch, the first poll yields a change and a notification is
attempted before any modification of the file. -/
theorem c9_amended (m : FileMeta) (hm : m.size ≠ 0 ∨ m.modTime ≠ 0) :
    metaChanged watchInit m = true ∧
    ∀ slp, WAction.notify ∈ (watchStep watchInit ⟨.ok m, .sent, slp⟩).1 := by
  have hc : metaChanged watchInit m = true := by
    simp only [metaChanged, watchInit, decide_eq_true_eq]
    exact hm
  refine ⟨hc, fun slp => ?_⟩
  cases slp <;> simp [watchStep, hc]

theorem c9_amended_witness :
    ((5 : Int) ≠ 0 ∨ (3 : Int) ≠ 0) ∧
    metaChanged watchInit ⟨5, 3⟩ = true ∧
    WAction.notify ∈
      (watchStep watchInit ⟨.ok ⟨5, 3⟩, .sent, .elapsed⟩).1 := by
  obtain ⟨h1, h2⟩ := c9_amended ⟨5, 3⟩ (by decide)
  exact ⟨by decide, h1, h2 .elapsed⟩

/-- Claim C8: across every trace of `ReadLine` / `ReadLastLine` calls and
external appends, `nextPosition` never decreases (also along trace
prefixes, so it never skips back), and it always equals the starting
offset plus the total byte footprint of all emitted lines — each line's
content plus its consumed terminator, zero to two extra bytes — plus the
bytes currently held in the pending buffer. -/
theorem c8_next_position_invariant :
    (∀ (st : LineReader) (ops : List LROp),
      st.nextPosition ≤ (runOps st ops).1.nextPosition) ∧
    (∀ (st : LineReader) (a b : List LROp),
      (runOps st a).1.nextPosition ≤ (runOps st (a ++ b)).1.nextPosition) ∧
    (∀ (st : LineReader) (ops : List LROp),
      (runOps st ops).1.nextPosition + st.buffer.length =
        st.nextPosition + ((runOps st ops).2.map Emitted.bytes).sum +
          (runOps st ops).1.buffer.length) ∧
    (∀ (st : LineReader) (ops : List LROp), ∀ em ∈ (runOps st ops).2,
      em.line.length ≤ em.bytes ∧ em.bytes ≤ em.line.length + 2) := by
  refine ⟨fun st ops => runOps_pos_mono ops st, fun st a b => ?_,
    fun st ops => runOps_accounting ops st,
    fun st ops => runOps_bytes_bound ops st⟩
  rw [runOps_append a st b]
  exact runOps_pos_mono b (runOps st a).1

theorem c8_witness :
    ((⟨4, by decide, [97, 10, 98], 0, []⟩ : LineReader).nextPosition ≤
      (runOps ⟨4, by decide, [97, 10, 98], 0, []⟩
        [.read, .readLast]).1.nextPosition) ∧
    ((runOps ⟨4, by decide, [97, 10, 98], 0, []⟩
        [.read, .readLast]).1.nextPosition +
      (⟨4, by decide, [97, 10, 98], 0, []⟩ : LineReader).buffer.length =
      (⟨4, by decide, [97, 10, 98], 0, []⟩ : LineReader).nextPosition +
        ((runOps ⟨4, by decide, [97, 10, 98], 0, []⟩
          [.read, .readLast]).2.map Emitted.bytes).sum +
        (runOps ⟨4, by decide, [97, 10, 98], 0, []⟩
          [.read, .readLast]).1.buffer.length) ∧
    (Emitted.mk [97] 2 ∈ (runOps ⟨4, by decide, [97, 10, 98], 0, []⟩
      [.read, .readLast]).2) ∧
    (([97] : List Nat).length ≤ 2 ∧ 2 ≤ ([97] : List Nat).length + 2) := by
  obtain ⟨h1, _, h3, h4⟩ := c8_next_position_invariant
  refine ⟨h1 ⟨4, by decide, [97, 10, 98], 0, []⟩ [.read, .readLast],
    h3 ⟨4, by decide, [97, 10, 98], 0, []⟩ [.read, .readLast],
    by decide,
    h4 ⟨4, by decide, [97, 10, 98], 0, []⟩ [.read, .readLast]
      ⟨[97], 2⟩ (by decide)⟩

end LogReader
